import Mathlib

/-!
Verification of the point-relocation pipeline in `src/move_point.py`.

The program loads a point layer and a rectangle layer, sorts the rectangles
by the X-coordinate of their centroids, assigns each point to the rectangle
that contains it (first containing candidate from a bounding-box spatial
index wins), and relocates every assigned point by the pure translation
taking the current rectangle's centroid to the cyclic-successor rectangle's
centroid.  Staged geometry updates are committed atomically; on commit
failure or an unexpected exception all staged changes are rolled back.

Shallow embedding conventions:
  * coordinates are rationals (the Python code uses the geometry library's
    floating point coordinates; the algorithms are coordinate-generic);
  * a layer is the list of its features in enumeration order;
  * rectangle geometries are axis-aligned rectangles; `containsPt` is the
    exact interior containment test of the geometry library, and
    `boundingBox`/`Box.intersects` are the bounding-box primitives behind
    the spatial index;
  * the external, fallible effects of `move_points` are driven by two
    oracles: `commitOk` is the outcome of `commitChanges()`, and `raiseAt`
    marks the index of the `changeGeometry` call at which the external
    library raises an exception (`none`, or an index past the staged calls,
    means no exception is raised);
  * `move_points` additionally returns the trace of externally visible
    events (edit-session control, staged geometry changes, per-move log
    lines) so that frame and observability properties can be stated.
-/

namespace MovePoint

/-- A 2-dimensional point (the geometry of a point feature). -/
structure Pt where
  x : ℚ
  y : ℚ
deriving DecidableEq, Repr

/-- An axis-aligned bounding box, as returned by `geometry().boundingBox()`. -/
structure Box where
  xMin : ℚ
  yMin : ℚ
  xMax : ℚ
  yMax : ℚ
deriving DecidableEq, Repr

/-- An axis-aligned rectangle polygon (the geometry of a rectangle feature). -/
structure Rect where
  xMin : ℚ
  yMin : ℚ
  xMax : ℚ
  yMax : ℚ
deriving DecidableEq, Repr

/-- Geometric centroid of a rectangle, `geometry().centroid().asPoint()`. -/
def Rect.centroid (r : Rect) : Pt :=
  ⟨(r.xMin + r.xMax) / 2, (r.yMin + r.yMax) / 2⟩

/-- Exact polygon containment test `geometry().contains(point_geom)`: the
point lies in the interior of the rectangle. -/
def Rect.containsPt (r : Rect) (p : Pt) : Bool :=
  r.xMin < p.x && p.x < r.xMax && r.yMin < p.y && p.y < r.yMax

/-- Bounding box of a rectangle geometry: the rectangle itself. -/
def Rect.boundingBox (r : Rect) : Box :=
  ⟨r.xMin, r.yMin, r.xMax, r.yMax⟩

/-- Bounding box of a point geometry: the degenerate box at the point. -/
def Pt.boundingBox (p : Pt) : Box :=
  ⟨p.x, p.y, p.x, p.y⟩

/-- Axis-aligned box intersection, the over-inclusive test of the spatial
index. -/
def Box.intersects (a b : Box) : Bool :=
  a.xMin ≤ b.xMax && b.xMin ≤ a.xMax && a.yMin ≤ b.yMax && b.yMin ≤ a.yMax

/-- A feature of the point layer: stable identifier plus point geometry. -/
structure PointFeature where
  id : Int
  geom : Pt
deriving DecidableEq, Repr

/-- A feature of the rectangle layer: stable identifier plus rectangle
geometry. -/
structure RectFeature where
  id : Int
  geom : Rect
deriving DecidableEq, Repr

/-- Centroid X-coordinate of a rectangle feature, the sort key of
`get_sorted_rectangles`. -/
def centroidX (r : RectFeature) : ℚ :=
  r.geom.centroid.x

/-- The sort relation of `get_sorted_rectangles`: ascending centroid
X-coordinate. -/
def rectLE (a b : RectFeature) : Prop :=
  centroidX a ≤ centroidX b

instance : DecidableRel rectLE := fun a b => inferInstanceAs (Decidable (_ ≤ _))

/-- Embedding of `get_sorted_rectangles`: the rectangle features sorted by
centroid X-coordinate.  Python's `list.sort` is a stable sort, and the
output of a stable sort is determined by the key, so `List.insertionSort`
(stable as well) is a faithful embedding. -/
def get_sorted_rectangles (rect_layer : List RectFeature) : List RectFeature :=
  rect_layer.insertionSort rectLE

/-- The spatial index over the rectangle layer: identifier and bounding box
of every rectangle feature. -/
abbrev SpatialIndex := List (Int × Box)

/-- Embedding of `create_spatial_index` applied to the rectangle layer. -/
def create_spatial_index (rect_layer : List RectFeature) : SpatialIndex :=
  rect_layer.map (fun r => (r.id, r.geom.boundingBox))

/-- Embedding of `rect_index.intersects(bbox)`: identifiers of all indexed
rectangles whose bounding box intersects the query box. -/
def SpatialIndex.intersects (idx : SpatialIndex) (b : Box) : List Int :=
  (idx.filter (fun e => e.2.intersects b)).map (fun e => e.1)

/-- Embedding of `rect_layer.getFeature(rect_id)`: the first feature of the
layer with the requested identifier, `none` when the identifier is absent
(in QGIS this yields an invalid feature; the totality theorem shows the
case never arises for identifiers produced by the index). -/
def getFeature : List RectFeature → Int → Option RectFeature
  | [], _ => none
  | r :: rest, fid => if r.id = fid then some r else getFeature rest fid

/-- The assignment `point_map`: an association list from rectangle
identifier to the bucket of point features assigned to it, in Python dict
insertion order. -/
abbrev PointMap := List (Int × List PointFeature)

/-- Embedding of `point_map[rect_id].append(point_feat)`: append to the
bucket of the first entry carrying the key, `none` on a missing key
(Python would raise `KeyError`). -/
def appendToBucket : PointMap → Int → PointFeature → Option PointMap
  | [], _, _ => none
  | (k, l) :: rest, rid, p =>
    if k = rid then some ((k, l ++ [p]) :: rest)
    else (appendToBucket rest rid p).map (fun pm => (k, l) :: pm)

/-- Lookup `point_map[rect_id]` (also used for the `in`-test of
`move_points`): the bucket of the first entry carrying the key. -/
def bucketOf : PointMap → Int → Option (List PointFeature)
  | [], _ => none
  | (k, l) :: rest, rid => if k = rid then some l else bucketOf rest rid

/-- Embedding of the inner candidate loop of `map_points_to_rectangles`:
walk the candidate identifiers in index order, fetch each rectangle
feature, and on the first exact containment append the point to that
rectangle's bucket and stop (`break`). -/
def assignToCandidates (rect_layer : List RectFeature) (pm : PointMap)
    (point_feat : PointFeature) : List Int → Option PointMap
  | [] => some pm
  | rect_id :: rest =>
    match getFeature rect_layer rect_id with
    | none => none
    | some rect_feat =>
      if rect_feat.geom.containsPt point_feat.geom then
        appendToBucket pm rect_feat.id point_feat
      else assignToCandidates rect_layer pm point_feat rest

/-- Embedding of `map_points_to_rectangles`: initialize one empty bucket
per rectangle feature, then fold the candidate loop over the point layer.
The `Option` tracks the two embedded fallible lookups (`getFeature` and the
bucket access). -/
def map_points_to_rectangles (point_layer : List PointFeature)
    (rect_layer : List RectFeature) (rect_index : SpatialIndex) :
    Option PointMap :=
  let init : PointMap := rect_layer.map (fun rect => (rect.id, []))
  point_layer.foldlM
    (fun pm point_feat =>
      assignToCandidates rect_layer pm point_feat
        (rect_index.intersects point_feat.geom.boundingBox))
    init

/-- Externally visible events of a `move_points` run, in order: the edit
session opening, per-move log lines, staged geometry changes, and the
commit or rollback outcome. -/
inductive Ev where
  | startEditing : Ev
  | logMove (src tgt : Int) (count : Nat) : Ev
  | changeGeometry (fid : Int) (g : Pt) : Ev
  | commit (ok : Bool) : Ev
  | rollBack : Ev
deriving DecidableEq, Repr

/-- The translated geometry: target centroid plus the point's offset from
the current centroid. -/
def newGeomFor (current_centroid target_centroid old_point : Pt) : Pt :=
  ⟨target_centroid.x + (old_point.x - current_centroid.x),
   target_centroid.y + (old_point.y - current_centroid.y)⟩

/-- Events of one iteration of the rectangle loop of `move_points`: skip a
rectangle whose identifier is missing from `point_map` or whose bucket is
empty; otherwise emit the log line followed by one staged geometry change
per point of the bucket. -/
def rectEvents (point_map : PointMap) (current_rect target_rect : RectFeature) :
    List Ev :=
  match bucketOf point_map current_rect.id with
  | none => []
  | some [] => []
  | some points_to_move =>
    Ev.logMove current_rect.id target_rect.id points_to_move.length ::
      points_to_move.map (fun p =>
        Ev.changeGeometry p.id
          (newGeomFor current_rect.geom.centroid target_rect.geom.centroid p.geom))

/-- Events of the whole staging loop: for the rectangle at position `i` of
the sorted list the target is position `(i+1) % num_rects`.  (`getD` never
falls back to its default since `(i+1) % num_rects` is in range.) -/
def stagingEvents (sorted_rects : List RectFeature) (point_map : PointMap) :
    List Ev :=
  let num_rects := sorted_rects.length
  (sorted_rects.enum).flatMap (fun ic =>
    rectEvents point_map ic.2 (sorted_rects.getD ((ic.1 + 1) % num_rects) ic.2))

/-- The staged `changeGeometry` calls of an event trace, in order. -/
def opsOf : List Ev → List (Int × Pt)
  | [] => []
  | Ev.changeGeometry fid g :: rest => (fid, g) :: opsOf rest
  | _ :: rest => opsOf rest

/-- Embedding of `point_layer.changeGeometry(fid, g)`: update the geometry
of every feature carrying the identifier (feature identifiers are unique in
a real layer). -/
def changeGeometry (point_layer : List PointFeature) (fid : Int) (g : Pt) :
    List PointFeature :=
  point_layer.map (fun f => if f.id = fid then { f with geom := g } else f)

/-- Apply a list of staged geometry changes in order. -/
def applyOps (point_layer : List PointFeature) : List (Int × Pt) → List PointFeature
  | [] => point_layer
  | (fid, g) :: rest => applyOps (changeGeometry point_layer fid g) rest

/-- The events emitted before the `k`-th staged geometry change (the point
at which the modelled exception interrupts the run). -/
def takeUntilChange : List Ev → Nat → List Ev
  | [], _ => []
  | Ev.changeGeometry _ _ :: _, 0 => []
  | Ev.changeGeometry fid g :: rest, Nat.succ k =>
    Ev.changeGeometry fid g :: takeUntilChange rest k
  | e :: rest, k => e :: takeUntilChange rest k

/-- Result of a `move_points` run: the returned boolean, the point layer
after the edit session closed, and the emitted event trace. -/
structure MoveResult where
  success : Bool
  layer : List PointFeature
  events : List Ev
deriving DecidableEq, Repr

/-- The commit half of `move_points`: on commit success the staged changes
become durable; on commit failure the errors are reported and `rollBack()`
restores the layer as loaded. -/
def commitPhase (point_layer : List PointFeature) (evs : List Ev)
    (ops : List (Int × Pt)) (commitOk : Bool) : MoveResult :=
  if commitOk then
    ⟨true, applyOps point_layer ops, Ev.startEditing :: evs ++ [Ev.commit true]⟩
  else
    ⟨false, point_layer, Ev.startEditing :: evs ++ [Ev.commit false, Ev.rollBack]⟩

/-- Embedding of `move_points`.  With an empty sorted rectangle list it
fails before `startEditing()`.  Otherwise it stages all geometry updates;
if the external library raises at the `raiseAt`-th `changeGeometry` call
the `except` branch rolls back and returns failure, else the commit phase
decides the outcome via the `commitOk` oracle. -/
def move_points (point_layer : List PointFeature) (sorted_rects : List RectFeature)
    (point_map : PointMap) (commitOk : Bool) (raiseAt : Option Nat) : MoveResult :=
  if sorted_rects.isEmpty then
    ⟨false, point_layer, []⟩
  else
    let evs := stagingEvents sorted_rects point_map
    let ops := opsOf evs
    match raiseAt with
    | some k =>
      if k < ops.length then
        ⟨false, point_layer, Ev.startEditing :: takeUntilChange evs k ++ [Ev.rollBack]⟩
      else
        commitPhase point_layer evs ops commitOk
    | none => commitPhase point_layer evs ops commitOk

/-- One full successful pipeline run of `process_layers` on in-memory
layers: sort the rectangles, build the index, compute a fresh assignment,
and relocate (commit succeeding, no exception).  The unreachable `none`
branch of the assignment leaves the layer unchanged. -/
def runOnce (rect_layer : List RectFeature) (point_layer : List PointFeature) :
    List PointFeature :=
  let sorted_rects := get_sorted_rectangles rect_layer
  let rect_index := create_spatial_index rect_layer
  match map_points_to_rectangles point_layer rect_layer rect_index with
  | none => point_layer
  | some point_map => (move_points point_layer sorted_rects point_map true none).layer

/-- Rectangles of a list are pairwise non-overlapping: no point is
contained in two distinct entries. -/
def DisjointRects (rects : List RectFeature) : Prop :=
  rects.Pairwise (fun r r' => ∀ q : Pt, ¬(r.geom.containsPt q ∧ r'.geom.containsPt q))

/-- Proof device: the rectangle identifier the candidate loop of
`map_points_to_rectangles` would settle on for point `p` given the
candidate list — the identifier of the first candidate whose feature
exactly contains the point. -/
def chooseRect (rect_layer : List RectFeature) (p : PointFeature) :
    List Int → Option Int
  | [] => none
  | rect_id :: rest =>
    match getFeature rect_layer rect_id with
    | none => none
    | some rect_feat =>
      if rect_feat.geom.containsPt p.geom then some rect_feat.id
      else chooseRect rect_layer p rest

/-- Proof device: the rectangle the whole pipeline assigns point `p` to. -/
def assignedRect (rect_layer : List RectFeature) (idx : SpatialIndex)
    (p : PointFeature) : Option Int :=
  chooseRect rect_layer p (idx.intersects p.geom.boundingBox)

instance : IsTotal RectFeature rectLE :=
  ⟨fun a b => le_total (centroidX a) (centroidX b)⟩

instance : IsTrans RectFeature rectLE :=
  ⟨fun _ _ _ hab hbc => le_trans hab hbc⟩

/-- Concrete fixture: the three rectangles of the specification scenario
(centroids at x = 0, 10 and 20), in unsorted enumeration order. -/
def rectsW : List RectFeature :=
  [⟨102, ⟨8, -2, 12, 2⟩⟩, ⟨103, ⟨18, -2, 22, 2⟩⟩, ⟨101, ⟨-2, -2, 2, 2⟩⟩]

/-- Concrete fixture: a point at (1,1) inside the rectangle with centroid
(0,0) and a point at (19,1) inside the rectangle with centroid (20,0). -/
def ptsW : List PointFeature := [⟨1, ⟨1, 1⟩⟩, ⟨2, ⟨19, 1⟩⟩]

/-- Concrete fixture: the scenario rectangles in ascending centroid-X
order. -/
def srW : List RectFeature :=
  [⟨101, ⟨-2, -2, 2, 2⟩⟩, ⟨102, ⟨8, -2, 12, 2⟩⟩, ⟨103, ⟨18, -2, 22, 2⟩⟩]

/-- Concrete fixture: the scenario assignment — point 1 in rectangle 101,
no point in 102, point 2 in 103. -/
def pmW : PointMap :=
  [(101, [⟨1, ⟨1, 1⟩⟩]), (102, []), (103, [⟨2, ⟨19, 1⟩⟩])]

/-! ### Lookup lemmas -/

theorem getFeature_eq_some {rl : List RectFeature} {fid : Int} {rf : RectFeature}
    (h : getFeature rl fid = some rf) : rf ∈ rl ∧ rf.id = fid := by
  induction rl with
  | nil => simp [getFeature] at h
  | cons r rest ih =>
    rw [getFeature] at h
    by_cases hid : r.id = fid
    · simp [hid] at h
      exact ⟨by simp [← h], h ▸ hid⟩
    · simp [hid] at h
      obtain ⟨h1, h2⟩ := ih h
      exact ⟨List.mem_cons_of_mem _ h1, h2⟩

theorem getFeature_isSome {rl : List RectFeature} {fid : Int}
    (h : fid ∈ rl.map RectFeature.id) : (getFeature rl fid).isSome := by
  induction rl with
  | nil => simp at h
  | cons r rest ih =>
    rw [getFeature]
    by_cases hid : r.id = fid
    · simp [hid]
    · simp [hid]
      simp at h
      rcases h with h | h
      · exact absurd h.symm hid
      · simpa using ih (by simpa using h)

theorem getFeature_of_mem {rl : List RectFeature}
    (hnd : (rl.map RectFeature.id).Nodup) {rf : RectFeature} (hm : rf ∈ rl) :
    getFeature rl rf.id = some rf := by
  induction rl with
  | nil => simp at hm
  | cons r rest ih =>
    simp only [List.map_cons, List.nodup_cons] at hnd
    rw [getFeature]
    rcases List.mem_cons.mp hm with rfl | hm
    · simp
    · have hne : r.id ≠ rf.id := by
        intro he
        exact hnd.1 (he ▸ List.mem_map_of_mem RectFeature.id hm)
      simp [hne]
      exact ih hnd.2 hm

theorem bucketOf_isSome_iff {pm : PointMap} {k : Int} :
    (bucketOf pm k).isSome ↔ k ∈ pm.map Prod.fst := by
  induction pm with
  | nil => simp [bucketOf]
  | cons e rest ih =>
    obtain ⟨k', l⟩ := e
    rw [bucketOf]
    by_cases hk : k' = k
    · simp [hk]
    · simp [hk, ih, Ne.symm hk]

theorem appendToBucket_isSome {pm : PointMap} {rid : Int} (p : PointFeature)
    (h : rid ∈ pm.map Prod.fst) : (appendToBucket pm rid p).isSome := by
  induction pm with
  | nil => simp at h
  | cons e rest ih =>
    obtain ⟨k, l⟩ := e
    rw [appendToBucket]
    by_cases hk : k = rid
    · simp [hk]
    · have hmem : rid ∈ rest.map Prod.fst := by
        simp at h
        rcases h with h | h
        · exact absurd h.symm hk
        · simpa using h
      obtain ⟨pm'', hpm⟩ := Option.isSome_iff_exists.mp (ih hmem)
      simp [hk, hpm]

theorem appendToBucket_keys {pm pm' : PointMap} {rid : Int} {p : PointFeature}
    (h : appendToBucket pm rid p = some pm') :
    pm'.map Prod.fst = pm.map Prod.fst := by
  induction pm generalizing pm' with
  | nil => simp [appendToBucket] at h
  | cons e rest ih =>
    obtain ⟨k, l⟩ := e
    rw [appendToBucket] at h
    by_cases hk : k = rid
    · subst hk
      simp at h
      simp [← h]
    · simp [hk] at h
      obtain ⟨pm'', h1, h2⟩ := h
      simp [← h2, ih h1]

theorem appendToBucket_bucketOf_self {pm pm' : PointMap} {rid : Int}
    {p : PointFeature} (h : appendToBucket pm rid p = some pm') :
    ∃ l, bucketOf pm rid = some l ∧ bucketOf pm' rid = some (l ++ [p]) := by
  induction pm generalizing pm' with
  | nil => simp [appendToBucket] at h
  | cons e rest ih =>
    obtain ⟨k, l⟩ := e
    rw [appendToBucket] at h
    by_cases hk : k = rid
    · subst hk
      simp at h
      exact ⟨l, by simp [bucketOf], by simp [← h, bucketOf]⟩
    · simp [hk] at h
      obtain ⟨pm'', h1, h2⟩ := h
      obtain ⟨l0, hl1, hl2⟩ := ih h1
      refine ⟨l0, ?_, ?_⟩
      · simpa [bucketOf, hk] using hl1
      · rw [← h2]
        simpa [bucketOf, hk] using hl2

theorem appendToBucket_bucketOf_ne {pm pm' : PointMap} {rid k : Int}
    {p : PointFeature} (h : appendToBucket pm rid p = some pm') (hk : k ≠ rid) :
    bucketOf pm' k = bucketOf pm k := by
  induction pm generalizing pm' with
  | nil => simp [appendToBucket] at h
  | cons e rest ih =>
    obtain ⟨k', l⟩ := e
    rw [appendToBucket] at h
    by_cases hk' : k' = rid
    · subst hk'
      simp at h
      rw [← h]
      simp [bucketOf, Ne.symm hk]
    · simp [hk'] at h
      obtain ⟨pm'', h1, h2⟩ := h
      rw [← h2]
      by_cases he : k' = k
      · simp [bucketOf, he]
      · simp [bucketOf, he, ih h1]

/-! ### Spatial index lemmas -/

theorem mem_ids_of_mem_intersects {rl : List RectFeature} {b : Box} {rid : Int}
    (h : rid ∈ (create_spatial_index rl).intersects b) :
    rid ∈ rl.map RectFeature.id := by
  unfold SpatialIndex.intersects create_spatial_index at h
  obtain ⟨e, hef, rfl⟩ := List.mem_map.mp h
  obtain ⟨hem, _⟩ := List.mem_filter.mp hef
  obtain ⟨r, hr, rfl⟩ := List.mem_map.mp hem
  exact List.mem_map_of_mem RectFeature.id hr

theorem mem_intersects_of_mem {rl : List RectFeature} {b : Box} {r : RectFeature}
    (hr : r ∈ rl) (hb : r.geom.boundingBox.intersects b) :
    r.id ∈ (create_spatial_index rl).intersects b := by
  unfold SpatialIndex.intersects create_spatial_index
  exact List.mem_map.mpr ⟨(r.id, r.geom.boundingBox),
    List.mem_filter.mpr ⟨List.mem_map.mpr ⟨r, hr, rfl⟩, hb⟩, rfl⟩

theorem boundingBox_intersects_of_containsPt {r : Rect} {p : Pt}
    (h : r.containsPt p) : r.boundingBox.intersects p.boundingBox := by
  simp only [Rect.containsPt, Bool.and_eq_true, decide_eq_true_eq] at h
  simp only [Rect.boundingBox, Pt.boundingBox, Box.intersects, Bool.and_eq_true,
    decide_eq_true_eq]
  obtain ⟨⟨⟨h1, h2⟩, h3⟩, h4⟩ := h
  exact ⟨⟨⟨le_of_lt h1, le_of_lt h2⟩, le_of_lt h3⟩, le_of_lt h4⟩

/-! ### Candidate loop lemmas -/

theorem chooseRect_eq_some {rl : List RectFeature} {p : PointFeature}
    {cands : List Int} {k : Int} (h : chooseRect rl p cands = some k) :
    ∃ rf ∈ rl, rf.id = k ∧ rf.geom.containsPt p.geom := by
  induction cands with
  | nil => simp [chooseRect] at h
  | cons c rest ih =>
    rw [chooseRect] at h
    cases hg : getFeature rl c with
    | none => rw [hg] at h; exact absurd h (by simp)
    | some rf =>
      rw [hg] at h
      by_cases hc : rf.geom.containsPt p.geom
      · simp [hc] at h
        obtain ⟨h1, _⟩ := getFeature_eq_some hg
        exact ⟨rf, h1, h, hc⟩
      · simp [hc] at h
        exact ih h

theorem chooseRect_spec {rl : List RectFeature} {p : PointFeature}
    {cands : List Int}
    (hsome : ∀ rid ∈ cands, (getFeature rl rid).isSome)
    {k : Int} (hk : k ∈ cands) {rk : RectFeature}
    (hgk : getFeature rl k = some rk) (hck : rk.geom.containsPt p.geom)
    (huni : ∀ rid ∈ cands, ∀ rf, getFeature rl rid = some rf →
      rf.geom.containsPt p.geom → rf.id = rk.id) :
    chooseRect rl p cands = some rk.id := by
  induction cands with
  | nil => simp at hk
  | cons c rest ih =>
    rw [chooseRect]
    obtain ⟨rc, hrc⟩ := Option.isSome_iff_exists.mp (hsome c (List.mem_cons_self _ _))
    rw [hrc]
    by_cases hc : rc.geom.containsPt p.geom
    · simp [hc]
      exact huni c (List.mem_cons_self _ _) rc hrc hc
    · simp [hc]
      have hkr : k ∈ rest := by
        rcases List.mem_cons.mp hk with rfl | hkr
        · rw [hrc] at hgk
          cases hgk
          exact absurd hck hc
        · exact hkr
      exact ih (fun rid hr => hsome rid (List.mem_cons_of_mem _ hr)) hkr
        (fun rid hr rf hg hcf =>
          huni rid (List.mem_cons_of_mem _ hr) rf hg hcf)

theorem assignToCandidates_characterization {rl : List RectFeature}
    {pm pm' : PointMap} {p : PointFeature} {cands : List Int}
    (h : assignToCandidates rl pm p cands = some pm') :
    (chooseRect rl p cands = none ∧ pm' = pm) ∨
      (∃ k, chooseRect rl p cands = some k ∧ appendToBucket pm k p = some pm') := by
  induction cands with
  | nil =>
    rw [assignToCandidates] at h
    left
    exact ⟨rfl, (Option.some_inj.mp h).symm⟩
  | cons c rest ih =>
    rw [assignToCandidates] at h
    rw [chooseRect]
    cases hg : getFeature rl c with
    | none => rw [hg] at h; exact absurd h (by simp)
    | some rf =>
      rw [hg] at h
      by_cases hc : rf.geom.containsPt p.geom
      · simp only [hc, if_true] at h ⊢
        right
        exact ⟨rf.id, rfl, h⟩
      · simp only [hc, if_false] at h ⊢
        exact ih h

theorem assignToCandidates_isSome {rl : List RectFeature} {pm : PointMap}
    {p : PointFeature} {cands : List Int}
    (hsome : ∀ rid ∈ cands, (getFeature rl rid).isSome)
    (hkeys : ∀ rid ∈ cands, ∀ rf, getFeature rl rid = some rf →
      rf.id ∈ pm.map Prod.fst) :
    (assignToCandidates rl pm p cands).isSome := by
  induction cands with
  | nil => simp [assignToCandidates]
  | cons c rest ih =>
    rw [assignToCandidates]
    obtain ⟨rc, hrc⟩ := Option.isSome_iff_exists.mp (hsome c (List.mem_cons_self _ _))
    rw [hrc]
    by_cases hc : rc.geom.containsPt p.geom
    · simp only [hc, if_true]
      exact appendToBucket_isSome p (hkeys c (List.mem_cons_self _ _) rc hrc)
    · simp only [hc, if_false]
      exact ih (fun rid hr => hsome rid (List.mem_cons_of_mem _ hr))
        (fun rid hr rf hg => hkeys rid (List.mem_cons_of_mem _ hr) rf hg)

theorem assignToCandidates_keys {rl : List RectFeature} {pm pm' : PointMap}
    {p : PointFeature} {cands : List Int}
    (h : assignToCandidates rl pm p cands = some pm') :
    pm'.map Prod.fst = pm.map Prod.fst := by
  rcases assignToCandidates_characterization h with ⟨_, rfl⟩ | ⟨k, _, hap⟩
  · rfl
  · exact appendToBucket_keys hap

theorem assignToCandidates_bucketOf {rl : List RectFeature} {pm pm' : PointMap}
    {p : PointFeature} {cands : List Int}
    (h : assignToCandidates rl pm p cands = some pm') (k : Int)
    (l0 : List PointFeature) (hb : bucketOf pm k = some l0) :
    bucketOf pm' k =
      some (l0 ++ if chooseRect rl p cands = some k then [p] else []) := by
  rcases assignToCandidates_characterization h with ⟨hc, rfl⟩ | ⟨k', hc, hap⟩
  · simp [hc, hb]
  · by_cases hk : k = k'
    · subst hk
      obtain ⟨l1, hl1, hl2⟩ := appendToBucket_bucketOf_self hap
      rw [hb] at hl1
      cases hl1
      simp [hc, hl2]
    · rw [appendToBucket_bucketOf_ne hap hk, hb, hc]
      simp [Ne.symm hk]

/-! ### Fold lemmas for the assignment -/

theorem foldlM_assign_keys {rl : List RectFeature} {idx : SpatialIndex} :
    ∀ {pts : List PointFeature} {pm pm' : PointMap},
    pts.foldlM
      (fun pm p => assignToCandidates rl pm p (idx.intersects p.geom.boundingBox))
      pm = some pm' →
    pm'.map Prod.fst = pm.map Prod.fst := by
  intro pts
  induction pts with
  | nil =>
    intro pm pm' h
    simp only [List.foldlM_nil] at h
    cases h
    rfl
  | cons p pts ih =>
    intro pm pm' h
    rw [List.foldlM_cons] at h
    cases hstep : assignToCandidates rl pm p (idx.intersects p.geom.boundingBox) with
    | none => rw [hstep] at h; exact absurd h (by simp)
    | some pm1 =>
      rw [hstep] at h
      simp only [Option.bind_eq_bind, Option.some_bind] at h
      exact (ih h).trans (assignToCandidates_keys hstep)

theorem foldlM_assign_bucketOf {rl : List RectFeature} {idx : SpatialIndex} :
    ∀ {pts : List PointFeature} {pm pm' : PointMap},
    pts.foldlM
      (fun pm p => assignToCandidates rl pm p (idx.intersects p.geom.boundingBox))
      pm = some pm' →
    ∀ k l0, bucketOf pm k = some l0 →
    bucketOf pm' k =
      some (l0 ++ pts.filter (fun p => decide (assignedRect rl idx p = some k))) := by
  intro pts
  induction pts with
  | nil =>
    intro pm pm' h k l0 hb
    simp only [List.foldlM_nil] at h
    cases h
    simpa using hb
  | cons p pts ih =>
    intro pm pm' h k l0 hb
    rw [List.foldlM_cons] at h
    cases hstep : assignToCandidates rl pm p (idx.intersects p.geom.boundingBox) with
    | none => rw [hstep] at h; exact absurd h (by simp)
    | some pm1 =>
      rw [hstep] at h
      simp only [Option.bind_eq_bind, Option.some_bind] at h
      have hb1 := assignToCandidates_bucketOf hstep k l0 hb
      have := ih h k _ hb1
      rw [this]
      by_cases hc : assignedRect rl idx p = some k
      · have hc' : chooseRect rl p (idx.intersects p.geom.boundingBox) = some k := hc
        simp [List.filter_cons, hc, hc', List.append_assoc]
      · have hc' : chooseRect rl p (idx.intersects p.geom.boundingBox) ≠ some k := hc
        simp [List.filter_cons, hc, hc']

theorem bucketOf_init {rl : List RectFeature} {k : Int}
    (hk : k ∈ rl.map RectFeature.id) :
    bucketOf (rl.map (fun r => (r.id, ([] : List PointFeature)))) k = some [] := by
  induction rl with
  | nil => simp at hk
  | cons r rest ih =>
    rw [List.map_cons, bucketOf]
    by_cases hr : r.id = k
    · simp [hr]
    · simp only [hr, if_false]
      simp at hk
      rcases hk with hk | hk
      · exact absurd hk.symm hr
      · exact ih (by simpa using hk)

theorem keys_init (rl : List RectFeature) :
    (rl.map (fun r => (r.id, ([] : List PointFeature)))).map Prod.fst =
      rl.map RectFeature.id := by
  rw [List.map_map]
  rfl

/-- Every bucket of a successfully computed assignment holds exactly the
points the candidate loop assigns to that rectangle identifier, in point
layer order. -/
theorem bucketOf_map_points {pts : List PointFeature} {rl : List RectFeature}
    {idx : SpatialIndex} {m : PointMap}
    (h : map_points_to_rectangles pts rl idx = some m) :
    (∀ k, k ∈ rl.map RectFeature.id →
      bucketOf m k =
        some (pts.filter (fun p => decide (assignedRect rl idx p = some k)))) ∧
    (∀ k, k ∉ rl.map RectFeature.id → bucketOf m k = none) := by
  unfold map_points_to_rectangles at h
  constructor
  · intro k hk
    simpa using foldlM_assign_bucketOf h k [] (bucketOf_init hk)
  · intro k hk
    have hkeys : m.map Prod.fst = rl.map RectFeature.id :=
      (foldlM_assign_keys h).trans (keys_init rl)
    rcases hm : bucketOf m k with _ | l
    · rfl
    · exact absurd (hkeys ▸ bucketOf_isSome_iff.mp (by simp [hm])) hk

/-- The assignment of `map_points_to_rectangles` never hits a missing
feature or a missing bucket when run against the spatial index built from
the same rectangle layer: every embedded lookup is total. -/
theorem map_points_isSome (pts : List PointFeature) (rl : List RectFeature) :
    (map_points_to_rectangles pts rl (create_spatial_index rl)).isSome := by
  unfold map_points_to_rectangles
  have hkeys0 := keys_init rl
  generalize rl.map (fun r => (r.id, ([] : List PointFeature))) = pm0 at hkeys0 ⊢
  induction pts generalizing pm0 with
  | nil => simp
  | cons p pts ih =>
    rw [List.foldlM_cons]
    have hstep : (assignToCandidates rl pm0 p
        ((create_spatial_index rl).intersects p.geom.boundingBox)).isSome := by
      apply assignToCandidates_isSome
      · intro rid hr
        exact getFeature_isSome (mem_ids_of_mem_intersects hr)
      · intro rid hr rf hg
        rw [hkeys0]
        exact List.mem_map_of_mem RectFeature.id (getFeature_eq_some hg).1
    obtain ⟨pm1, hpm1⟩ := Option.isSome_iff_exists.mp hstep
    rw [hpm1]
    simp only [Option.bind_eq_bind, Option.some_bind]
    exact ih pm1 ((assignToCandidates_keys hpm1).trans hkeys0)

/-! ### Assignment determination under non-overlapping rectangles -/

theorem eq_of_both_contain {rl : List RectFeature} (hD : DisjointRects rl)
    {r1 r2 : RectFeature} (h1 : r1 ∈ rl) (h2 : r2 ∈ rl) {q : Pt}
    (hc1 : r1.geom.containsPt q) (hc2 : r2.geom.containsPt q) : r1 = r2 := by
  by_contra hne
  have hsym : Symmetric
      (fun r r' : RectFeature => ∀ q : Pt,
        ¬(r.geom.containsPt q ∧ r'.geom.containsPt q)) := by
    intro a b hab q hq
    exact hab q ⟨hq.2, hq.1⟩
  exact hD.forall hsym h1 h2 hne q ⟨hc1, hc2⟩

/-- If point `p` lies inside rectangle feature `r` of the layer, the
candidate loop run against the layer's own spatial index assigns `p`
to `r` — regardless of the candidate enumeration order. -/
theorem assignedRect_eq_of_contains {rl : List RectFeature}
    (hR : (rl.map RectFeature.id).Nodup) (hD : DisjointRects rl)
    {p : PointFeature} {r : RectFeature} (hr : r ∈ rl)
    (hc : r.geom.containsPt p.geom) :
    assignedRect rl (create_spatial_index rl) p = some r.id := by
  unfold assignedRect
  apply chooseRect_spec
  · intro rid hrid
    exact getFeature_isSome (mem_ids_of_mem_intersects hrid)
  · exact mem_intersects_of_mem hr (boundingBox_intersects_of_containsPt hc)
  · exact getFeature_of_mem hR hr
  · exact hc
  · intro rid _ rf hg hcf
    exact congrArg RectFeature.id
      (eq_of_both_contain hD (getFeature_eq_some hg).1 hr hcf hc)

/-- Conversely, an assigned rectangle identifier always names a rectangle
of the layer that exactly contains the point. -/
theorem contains_of_assignedRect {rl : List RectFeature} {idx : SpatialIndex}
    {p : PointFeature} {k : Int} (h : assignedRect rl idx p = some k) :
    ∃ rf ∈ rl, rf.id = k ∧ rf.geom.containsPt p.geom :=
  chooseRect_eq_some h

/-! ### Event and staged-operation lemmas -/

theorem opsOf_append (a b : List Ev) : opsOf (a ++ b) = opsOf a ++ opsOf b := by
  induction a with
  | nil => rfl
  | cons e rest ih => cases e <;> simp [opsOf, ih]

theorem mem_opsOf {evs : List Ev} {fid : Int} {g : Pt} :
    (fid, g) ∈ opsOf evs ↔ Ev.changeGeometry fid g ∈ evs := by
  induction evs with
  | nil => simp [opsOf]
  | cons e rest ih => cases e <;> simp [opsOf, ih]

theorem opsOf_map_changeGeometry {α : Type} (l : List α) (f : α → Int)
    (g : α → Pt) :
    opsOf (l.map (fun a => Ev.changeGeometry (f a) (g a))) =
      l.map (fun a => (f a, g a)) := by
  induction l with
  | nil => rfl
  | cons a rest ih => simp [opsOf, ih]

theorem takeUntilChange_sublist : ∀ (evs : List Ev) (k : Nat),
    List.Sublist (takeUntilChange evs k) evs
  | [], _ => List.nil_sublist _
  | Ev.changeGeometry _ _ :: rest, 0 => List.nil_sublist _
  | Ev.changeGeometry _ _ :: rest, Nat.succ k =>
    List.Sublist.cons₂ _ (takeUntilChange_sublist rest k)
  | Ev.startEditing :: rest, k => List.Sublist.cons₂ _ (takeUntilChange_sublist rest k)
  | Ev.logMove _ _ _ :: rest, k => List.Sublist.cons₂ _ (takeUntilChange_sublist rest k)
  | Ev.commit _ :: rest, k => List.Sublist.cons₂ _ (takeUntilChange_sublist rest k)
  | Ev.rollBack :: rest, k => List.Sublist.cons₂ _ (takeUntilChange_sublist rest k)

theorem opsOf_rectEvents (pm : PointMap) (cur tgt : RectFeature) :
    opsOf (rectEvents pm cur tgt) =
      (bucketOf pm cur.id).elim []
        (fun bkt => bkt.map (fun p =>
          (p.id, newGeomFor cur.geom.centroid tgt.geom.centroid p.geom))) := by
  rcases hb : bucketOf pm cur.id with _ | (_ | ⟨q, rest⟩)
  · simp [rectEvents, hb, opsOf]
  · simp [rectEvents, hb, opsOf]
  · rw [rectEvents]
    rw [hb]
    simp only [Option.elim]
    rw [show (Ev.logMove cur.id tgt.id (q :: rest).length ::
        (q :: rest).map (fun p => Ev.changeGeometry p.id
          (newGeomFor cur.geom.centroid tgt.geom.centroid p.geom))) =
      [Ev.logMove cur.id tgt.id (q :: rest).length] ++
        (q :: rest).map (fun p => Ev.changeGeometry p.id
          (newGeomFor cur.geom.centroid tgt.geom.centroid p.geom)) from rfl]
    rw [opsOf_append, opsOf_map_changeGeometry]
    rfl

theorem mem_rectEvents_change {pm : PointMap} {cur tgt : RectFeature}
    {fid : Int} {g : Pt} :
    Ev.changeGeometry fid g ∈ rectEvents pm cur tgt ↔
      ∃ bkt q, bucketOf pm cur.id = some bkt ∧ q ∈ bkt ∧ q.id = fid ∧
        g = newGeomFor cur.geom.centroid tgt.geom.centroid q.geom := by
  rcases hb : bucketOf pm cur.id with _ | (_ | ⟨q0, rest⟩)
  · simp [rectEvents, hb]
  · simp [rectEvents, hb]
  · rw [rectEvents, hb]
    simp only [List.mem_cons, List.mem_map]
    constructor
    · rintro (h | h)
      · exact absurd h (by simp)
      · obtain ⟨q, hq, he⟩ := h
        cases he
        exact ⟨q0 :: rest, q, rfl, List.mem_cons.mpr hq, rfl, rfl⟩
    · rintro ⟨bkt, q, hbkt, hq, rfl, rfl⟩
      cases hbkt
      exact Or.inr ⟨q, List.mem_cons.mp hq, rfl⟩

theorem mem_rectEvents_log {pm : PointMap} {cur tgt : RectFeature}
    {s t : Int} {n : Nat} :
    Ev.logMove s t n ∈ rectEvents pm cur tgt ↔
      ∃ bkt, bucketOf pm cur.id = some bkt ∧ bkt ≠ [] ∧
        s = cur.id ∧ t = tgt.id ∧ n = bkt.length := by
  rcases hb : bucketOf pm cur.id with _ | (_ | ⟨q0, rest⟩)
  · simp [rectEvents, hb]
  · simp [rectEvents, hb]
  · rw [rectEvents, hb]
    simp only [List.mem_cons, List.mem_map]
    constructor
    · rintro (h | h)
      · cases h
        exact ⟨q0 :: rest, rfl, by simp, rfl, rfl, rfl⟩
      · obtain ⟨q, _, he⟩ := h
        exact absurd he (by simp)
    · rintro ⟨bkt, hbkt, _, rfl, rfl, rfl⟩
      cases hbkt
      exact Or.inl rfl

/-! ### Layer update lemmas -/

theorem getElem?_changeGeometry (pl : List PointFeature) (fid : Int) (g : Pt)
    (j : Nat) :
    (changeGeometry pl fid g)[j]? =
      (pl[j]?).map (fun f => if f.id = fid then { f with geom := g } else f) := by
  simp [changeGeometry]

theorem changeGeometry_map_id (pl : List PointFeature) (fid : Int) (g : Pt) :
    (changeGeometry pl fid g).map PointFeature.id = pl.map PointFeature.id := by
  unfold changeGeometry
  rw [List.map_map]
  apply List.map_congr_left
  intro f _
  by_cases h : f.id = fid <;> simp [h]

theorem map_id_applyOps : ∀ (ops : List (Int × Pt)) (pl : List PointFeature),
    (applyOps pl ops).map PointFeature.id = pl.map PointFeature.id
  | [], pl => rfl
  | (fid, g) :: rest, pl => by
    rw [applyOps, map_id_applyOps rest, changeGeometry_map_id]

theorem length_applyOps (ops : List (Int × Pt)) (pl : List PointFeature) :
    (applyOps pl ops).length = pl.length := by
  have := congrArg List.length (map_id_applyOps ops pl)
  simpa using this

theorem applyOps_untouched : ∀ {ops : List (Int × Pt)} {pl : List PointFeature}
    {j : Nat} {f : PointFeature}, pl[j]? = some f → f.id ∉ ops.map Prod.fst →
    (applyOps pl ops)[j]? = some f := by
  intro ops
  induction ops with
  | nil => intro pl j f hj _; exact hj
  | cons op rest ih =>
    obtain ⟨fid, g⟩ := op
    intro pl j f hj hni
    simp only [List.map_cons, List.mem_cons] at hni
    push_neg at hni
    rw [applyOps]
    apply ih _ hni.2
    rw [getElem?_changeGeometry, hj]
    simp [hni.1]

theorem applyOps_hit : ∀ {ops : List (Int × Pt)} {fid : Int} {g : Pt},
    (fid, g) ∈ ops → (∀ g2, (fid, g2) ∈ ops → g2 = g) →
    ∀ {pl : List PointFeature} {j : Nat} {f : PointFeature},
    pl[j]? = some f → f.id = fid → (applyOps pl ops)[j]? = some ⟨fid, g⟩ := by
  intro ops
  induction ops with
  | nil => intro fid g hmem _ _ _ _ _ _; simp at hmem
  | cons op rest ih =>
    obtain ⟨fid', g'⟩ := op
    intro fid g hmem huni pl j f hj hf
    rw [applyOps]
    by_cases hfe : fid' = fid
    · subst hfe
      have hg' : g' = g := huni g' (List.mem_cons_self _ _)
      rw [hg']
      have hj' : (changeGeometry pl fid' g)[j]? = some ⟨fid', g⟩ := by
        rw [getElem?_changeGeometry, hj]
        simp [hf]
      by_cases hrest : fid' ∈ rest.map Prod.fst
      · obtain ⟨⟨a, b⟩, hab, ha⟩ := List.mem_map.mp hrest
        simp only at ha
        subst ha
        have hb : b = g := huni b (List.mem_cons_of_mem _ hab)
        rw [hb] at hab
        exact ih hab (fun g2 h2 => huni g2 (List.mem_cons_of_mem _ h2)) hj' rfl
      · exact applyOps_untouched hj' hrest
    · have hmem' : (fid, g) ∈ rest := by
        rcases List.mem_cons.mp hmem with he | hm
        · cases he; exact absurd rfl hfe
        · exact hm
      have hj' : (changeGeometry pl fid' g')[j]? = some f := by
        rw [getElem?_changeGeometry, hj]
        simp [hf, hfe, Ne.symm hfe]
      exact ih hmem' (fun g2 h2 => huni g2 (List.mem_cons_of_mem _ h2)) hj' hf

/-! ### Path lemmas for `move_points` -/

theorem move_points_nil (pl : List PointFeature) (pm : PointMap) (ck : Bool)
    (rA : Option Nat) : move_points pl [] pm ck rA = ⟨false, pl, []⟩ := by
  cases rA <;> rfl

theorem move_points_success (pl : List PointFeature) {sr : List RectFeature}
    (h : sr ≠ []) (pm : PointMap) :
    move_points pl sr pm true none =
      ⟨true, applyOps pl (opsOf (stagingEvents sr pm)),
        Ev.startEditing :: (stagingEvents sr pm ++ [Ev.commit true])⟩ := by
  unfold move_points
  rw [if_neg (by simpa using h)]
  rfl

theorem move_points_commitFail (pl : List PointFeature) {sr : List RectFeature}
    (h : sr ≠ []) (pm : PointMap) :
    move_points pl sr pm false none =
      ⟨false, pl, Ev.startEditing ::
        (stagingEvents sr pm ++ [Ev.commit false, Ev.rollBack])⟩ := by
  unfold move_points
  rw [if_neg (by simpa using h)]
  rfl

theorem move_points_raise (pl : List PointFeature) {sr : List RectFeature}
    (h : sr ≠ []) (pm : PointMap) (ck : Bool) {k : Nat}
    (hk : k < (opsOf (stagingEvents sr pm)).length) :
    move_points pl sr pm ck (some k) =
      ⟨false, pl, Ev.startEditing ::
        (takeUntilChange (stagingEvents sr pm) k ++ [Ev.rollBack])⟩ := by
  unfold move_points
  rw [if_neg (by simpa using h)]
  show (if k < (opsOf (stagingEvents sr pm)).length then _ else _) = _
  rw [if_pos hk]
  simp

theorem move_points_raise_late (pl : List PointFeature) {sr : List RectFeature}
    (h : sr ≠ []) (pm : PointMap) (ck : Bool) {k : Nat}
    (hk : ¬ k < (opsOf (stagingEvents sr pm)).length) :
    move_points pl sr pm ck (some k) =
      commitPhase pl (stagingEvents sr pm) (opsOf (stagingEvents sr pm)) ck := by
  unfold move_points
  rw [if_neg (by simpa using h)]
  show (if k < (opsOf (stagingEvents sr pm)).length then _ else _) = _
  rw [if_neg hk]

theorem move_points_failure {pl : List PointFeature} {sr : List RectFeature}
    {pm : PointMap} {ck : Bool} {rA : Option Nat}
    (h : ck = false ∨
      ∃ k, rA = some k ∧ k < (opsOf (stagingEvents sr pm)).length) :
    (move_points pl sr pm ck rA).success = false ∧
      (move_points pl sr pm ck rA).layer = pl := by
  by_cases hsr : sr = []
  · subst hsr
    rw [move_points_nil]
    exact ⟨rfl, rfl⟩
  · rcases h with rfl | ⟨k, rfl, hk⟩
    · cases rA with
      | none => rw [move_points_commitFail pl hsr pm]; exact ⟨rfl, rfl⟩
      | some k =>
        by_cases hk : k < (opsOf (stagingEvents sr pm)).length
        · rw [move_points_raise pl hsr pm false hk]; exact ⟨rfl, rfl⟩
        · rw [move_points_raise_late pl hsr pm false hk]
          unfold commitPhase
          rw [if_neg (by simp)]
          exact ⟨rfl, rfl⟩
    · rw [move_points_raise pl hsr pm ck hk]
      exact ⟨rfl, rfl⟩

theorem events_move_points {pl : List PointFeature} {sr : List RectFeature}
    {pm : PointMap} {ck : Bool} {rA : Option Nat} {e : Ev}
    (h : e ∈ (move_points pl sr pm ck rA).events) :
    e = Ev.startEditing ∨ e ∈ stagingEvents sr pm ∨
      e = Ev.commit ck ∨ e = Ev.rollBack := by
  by_cases hsr : sr = []
  · subst hsr
    rw [move_points_nil] at h
    simp at h
  · have hcommit : e ∈ (commitPhase pl (stagingEvents sr pm)
        (opsOf (stagingEvents sr pm)) ck).events →
        e = Ev.startEditing ∨ e ∈ stagingEvents sr pm ∨
          e = Ev.commit ck ∨ e = Ev.rollBack := by
      intro hm
      unfold commitPhase at hm
      cases ck <;> simp at hm <;> tauto
    cases rA with
    | none =>
      cases ck
      · rw [move_points_commitFail pl hsr pm] at h
        simp at h
        tauto
      · rw [move_points_success pl hsr pm] at h
        simp at h
        tauto
    | some k =>
      by_cases hk : k < (opsOf (stagingEvents sr pm)).length
      · rw [move_points_raise pl hsr pm ck hk] at h
        simp at h
        rcases h with rfl | h | rfl
        · exact Or.inl rfl
        · exact Or.inr (Or.inl
            ((takeUntilChange_sublist (stagingEvents sr pm) k).subset h))
        · exact Or.inr (Or.inr (Or.inr rfl))
      · rw [move_points_raise_late pl hsr pm ck hk] at h
        exact hcommit h

/-- C5 -- The rectangle orderer returns exactly the rectangle features,
sorted ascending by centroid X-coordinate; the sort is stable (features
with any given centroid X appear exactly in their original enumeration
order), and — being a pure function — re-running it on an unchanged
rectangle set yields the same sequence. -/
theorem c5_sort_sorted_stable_deterministic (rl : List RectFeature) :
    List.Sorted rectLE (get_sorted_rectangles rl) ∧
    List.Perm (get_sorted_rectangles rl) rl ∧
    (∀ q : ℚ, (get_sorted_rectangles rl).filter (fun r => decide (centroidX r = q)) =
      rl.filter (fun r => decide (centroidX r = q))) ∧
    get_sorted_rectangles rl = get_sorted_rectangles rl := by
  refine ⟨List.sorted_insertionSort rectLE rl, List.perm_insertionSort rectLE rl, ?_, rfl⟩
  intro q
  set p : RectFeature → Bool := fun r => decide (centroidX r = q) with hp
  have hmemq : ∀ r ∈ rl.filter p, centroidX r = q := by
    intro r hr
    have := (List.mem_filter.mp hr).2
    simpa [hp] using this
  have hpw : (rl.filter p).Pairwise rectLE := by
    apply List.pairwise_of_forall_mem_list
    intro a ha b hb
    unfold rectLE
    rw [hmemq a ha, hmemq b hb]
  have hsub : List.Sublist (rl.filter p) (get_sorted_rectangles rl) :=
    List.sublist_insertionSort hpw (List.filter_sublist rl)
  have hsub2 : List.Sublist (rl.filter p) ((get_sorted_rectangles rl).filter p) := by
    have hself : (rl.filter p).filter p = rl.filter p :=
      List.filter_eq_self.mpr (fun a ha => by simp [hp, hmemq a ha])
    have hstep := List.Sublist.filter p hsub
    rw [hself] at hstep
    exact hstep
  have hperm : List.Perm ((get_sorted_rectangles rl).filter p) (rl.filter p) :=
    List.Perm.filter p (List.perm_insertionSort rectLE rl)
  exact (List.Sublist.eq_of_length hsub2 hperm.length_eq.symm).symm

/-- C7 -- With an empty sorted rectangle sequence (zero rectangle
features), `move_points` returns failure immediately: the point layer is
untouched and the event trace is empty, so no edit session is ever opened
and no mutation is attempted. -/
theorem c7_empty_rectangles_fail_fast (pl : List PointFeature) (pm : PointMap)
    (ck : Bool) (rA : Option Nat) :
    move_points pl (get_sorted_rectangles []) pm ck rA =
      ⟨false, pl, []⟩ := by
  cases rA <;> rfl

/-- C2 -- On any failure path — the commit reporting failure, or the
modelled exception interrupting one of the staged `changeGeometry`
calls — `move_points` rolls back and returns failure with the point layer
exactly as loaded; no partial write survives. -/
theorem c2_rollback_on_failure (pl : List PointFeature) (sr : List RectFeature)
    (pm : PointMap) (ck : Bool) (rA : Option Nat)
    (h : ck = false ∨
      ∃ k, rA = some k ∧ k < (opsOf (stagingEvents sr pm)).length) :
    (move_points pl sr pm ck rA).success = false ∧
      (move_points pl sr pm ck rA).layer = pl :=
  move_points_failure h

/-- Witness for C2 at a concrete run: one rectangle, one assigned point,
commit failing; and the same run interrupted by an exception at the only
staged geometry change. -/
theorem c2_rollback_on_failure_witness :
    ((move_points [⟨1, ⟨1, 1⟩⟩] [⟨5, ⟨0, 0, 4, 4⟩⟩] [(5, [⟨1, ⟨1, 1⟩⟩])]
        false none).success = false ∧
      (move_points [⟨1, ⟨1, 1⟩⟩] [⟨5, ⟨0, 0, 4, 4⟩⟩] [(5, [⟨1, ⟨1, 1⟩⟩])]
        false none).layer = [⟨1, ⟨1, 1⟩⟩]) ∧
    ((move_points [⟨1, ⟨1, 1⟩⟩] [⟨5, ⟨0, 0, 4, 4⟩⟩] [(5, [⟨1, ⟨1, 1⟩⟩])]
        true (some 0)).success = false ∧
      (move_points [⟨1, ⟨1, 1⟩⟩] [⟨5, ⟨0, 0, 4, 4⟩⟩] [(5, [⟨1, ⟨1, 1⟩⟩])]
        true (some 0)).layer = [⟨1, ⟨1, 1⟩⟩]) :=
  ⟨c2_rollback_on_failure _ _ _ _ _ (Or.inl rfl),
   c2_rollback_on_failure _ _ _ _ _ (Or.inr ⟨0, rfl, by
     simp [stagingEvents, rectEvents, bucketOf, opsOf]⟩)⟩

/-- C10 -- Run against the spatial index built from the same rectangle
layer, `map_points_to_rectangles` never fails: every candidate identifier
returned by the index names a feature of the rectangle layer, and every
bucket lookup `point_map[rect_feat.id()]` finds its pre-initialized
bucket, so the assignment is always produced. -/
theorem c10_assignment_lookups_total (pts : List PointFeature)
    (rl : List RectFeature) :
    ∃ m, map_points_to_rectangles pts rl (create_spatial_index rl) = some m :=
  Option.isSome_iff_exists.mp (map_points_isSome pts rl)

theorem map_points_keys {pts : List PointFeature} {rl : List RectFeature}
    {idx : SpatialIndex} {m : PointMap}
    (h : map_points_to_rectangles pts rl idx = some m) :
    m.map Prod.fst = rl.map RectFeature.id := by
  unfold map_points_to_rectangles at h
  exact (foldlM_assign_keys h).trans (keys_init rl)

theorem mem_stagingEvents_change {sr : List RectFeature} {pm : PointMap}
    {fid : Int} {g : Pt} (h : Ev.changeGeometry fid g ∈ stagingEvents sr pm) :
    ∃ (i : Nat) (hi : i < sr.length) (bkt : List PointFeature) (q : PointFeature),
      bucketOf pm (sr.get ⟨i, hi⟩).id = some bkt ∧ q ∈ bkt ∧ q.id = fid ∧
      g = newGeomFor (sr.get ⟨i, hi⟩).geom.centroid
        (sr.getD ((i + 1) % sr.length) (sr.get ⟨i, hi⟩)).geom.centroid q.geom := by
  unfold stagingEvents at h
  obtain ⟨ic, hic, hev⟩ := List.mem_flatMap.mp h
  obtain ⟨i, c⟩ := ic
  have hget : sr[i]? = some c := List.mk_mem_enum_iff_getElem?.mp hic
  have hi : i < sr.length := by
    by_contra hlt
    rw [List.getElem?_eq_none (Nat.le_of_not_lt hlt)] at hget
    cases hget
  have hc : sr.get ⟨i, hi⟩ = c := by
    rw [List.getElem?_eq_getElem hi] at hget
    simpa [List.get_eq_getElem] using hget
  obtain ⟨bkt, q, hbkt, hq, hqid, hg⟩ := mem_rectEvents_change.mp hev
  exact ⟨i, hi, bkt, q, by rw [hc]; exact hbkt, hq, hqid, by rw [hc]; exact hg⟩

theorem mem_stagingEvents_log {sr : List RectFeature} {pm : PointMap}
    {s t : Int} {n : Nat} (h : Ev.logMove s t n ∈ stagingEvents sr pm) :
    ∃ r ∈ sr, ∃ bkt, s = r.id ∧ bucketOf pm r.id = some bkt ∧ bkt ≠ [] := by
  unfold stagingEvents at h
  obtain ⟨ic, hic, hev⟩ := List.mem_flatMap.mp h
  obtain ⟨i, c⟩ := ic
  have hget : sr[i]? = some c := List.mk_mem_enum_iff_getElem?.mp hic
  have hcm : c ∈ sr := by
    have hi : i < sr.length := by
      by_contra hlt
      rw [List.getElem?_eq_none (Nat.le_of_not_lt hlt)] at hget
      cases hget
    rw [List.getElem?_eq_getElem hi] at hget
    cases hget
    exact List.getElem_mem hi
  obtain ⟨bkt, hbkt, hne, hs, _, _⟩ := mem_rectEvents_log.mp hev
  exact ⟨c, hcm, bkt, hs, hbkt, hne⟩

/-- C1 -- Each point of the bucket of the rectangle at position `i` of the
sorted sequence is staged to move by a pure translation: its staged new
coordinates are the centroid of the rectangle at position `(i+1) mod N`
plus the offset of the point from the current rectangle's centroid. -/
theorem c1_relocation_is_translation (pl : List PointFeature)
    (sr : List RectFeature) (pm : PointMap) (ck : Bool) (i : Nat)
    (hi : i < sr.length) (bkt : List PointFeature)
    (hb : bucketOf pm (sr.get ⟨i, hi⟩).id = some bkt)
    (p : PointFeature) (hp : p ∈ bkt) :
    Ev.changeGeometry p.id
      ⟨(sr.get ⟨(i + 1) % sr.length,
            Nat.mod_lt _ (Nat.lt_of_le_of_lt (Nat.zero_le i) hi)⟩).geom.centroid.x
          + (p.geom.x - (sr.get ⟨i, hi⟩).geom.centroid.x),
        (sr.get ⟨(i + 1) % sr.length,
            Nat.mod_lt _ (Nat.lt_of_le_of_lt (Nat.zero_le i) hi)⟩).geom.centroid.y
          + (p.geom.y - (sr.get ⟨i, hi⟩).geom.centroid.y)⟩
      ∈ (move_points pl sr pm ck none).events := by
  have hpos : 0 < sr.length := Nat.lt_of_le_of_lt (Nat.zero_le i) hi
  have h2 : (i + 1) % sr.length < sr.length := Nat.mod_lt _ hpos
  have hne : sr ≠ [] := by
    intro he
    rw [he] at hi
    simp at hi
  have hgetD : sr.getD ((i + 1) % sr.length) (sr.get ⟨i, hi⟩) =
      sr.get ⟨(i + 1) % sr.length, h2⟩ := by
    rw [List.getD_eq_getElem?_getD, List.getElem?_eq_getElem h2]
    rfl
  have hstage : Ev.changeGeometry p.id
      (newGeomFor (sr.get ⟨i, hi⟩).geom.centroid
        (sr.get ⟨(i + 1) % sr.length, h2⟩).geom.centroid p.geom)
      ∈ stagingEvents sr pm := by
    unfold stagingEvents
    apply List.mem_flatMap.mpr
    refine ⟨(i, sr.get ⟨i, hi⟩), ?_, ?_⟩
    · exact List.mk_mem_enum_iff_getElem?.mpr
        (by rw [List.getElem?_eq_getElem hi]; rfl)
    · rw [hgetD]
      exact mem_rectEvents_change.mpr ⟨bkt, p, hb, hp, rfl, rfl⟩
  cases ck
  · rw [move_points_commitFail pl hne pm]
    simp only [List.mem_cons, List.mem_append]
    exact Or.inr (Or.inl hstage)
  · rw [move_points_success pl hne pm]
    simp only [List.mem_cons, List.mem_append]
    exact Or.inr (Or.inl hstage)

/-- C3 -- Exclusivity of the assignment: a point feature identifier
appears in the bucket of at most one rectangle identifier (given the layer
invariant that point feature identifiers are unique). -/
theorem c3_assignment_exclusive (pts : List PointFeature)
    (rl : List RectFeature) (m : PointMap)
    (hP : (pts.map PointFeature.id).Nodup)
    (hm : map_points_to_rectangles pts rl (create_spatial_index rl) = some m)
    (pid : Int) (k k' : Int) (bk bk' : List PointFeature)
    (hbk : bucketOf m k = some bk) (hbk' : bucketOf m k' = some bk')
    (hin : pid ∈ bk.map PointFeature.id) (hin' : pid ∈ bk'.map PointFeature.id) :
    k = k' := by
  have hkm : k ∈ rl.map RectFeature.id := by
    rw [← map_points_keys hm]
    exact bucketOf_isSome_iff.mp (by simp [hbk])
  have hkm' : k' ∈ rl.map RectFeature.id := by
    rw [← map_points_keys hm]
    exact bucketOf_isSome_iff.mp (by simp [hbk'])
  have h1 := (bucketOf_map_points hm).1 k hkm
  have h2 := (bucketOf_map_points hm).1 k' hkm'
  rw [hbk] at h1
  rw [hbk'] at h2
  cases h1
  cases h2
  obtain ⟨p, hpf, hpid⟩ := List.mem_map.mp hin
  obtain ⟨p', hpf', hpid'⟩ := List.mem_map.mp hin'
  have hp1 := List.mem_filter.mp hpf
  have hp2 := List.mem_filter.mp hpf'
  have hpe : p = p' :=
    List.inj_on_of_nodup_map hP hp1.1 hp2.1 (hpid.trans hpid'.symm)
  have ha1 : assignedRect rl (create_spatial_index rl) p = some k := by
    simpa using hp1.2
  have ha2 : assignedRect rl (create_spatial_index rl) p' = some k' := by
    simpa using hp2.2
  rw [hpe] at ha1
  rw [ha1] at ha2
  exact Option.some_inj.mp ha2

/-- C6 -- The assignment always succeeds, contains every rectangle
identifier as a key (an empty bucket when no point matches), and a point
contained by no rectangle of the layer is absent from every bucket. -/
theorem c6_assignment_keys_and_orphans (pts : List PointFeature)
    (rl : List RectFeature) :
    ∃ m, map_points_to_rectangles pts rl (create_spatial_index rl) = some m ∧
      (∀ r ∈ rl, ∃ bkt, bucketOf m r.id = some bkt) ∧
      (∀ p : PointFeature, (∀ r ∈ rl, ¬ r.geom.containsPt p.geom) →
        ∀ k bkt, bucketOf m k = some bkt → p ∉ bkt) := by
  obtain ⟨m, hm⟩ := Option.isSome_iff_exists.mp (map_points_isSome pts rl)
  refine ⟨m, hm, ?_, ?_⟩
  · intro r hr
    have hkm : r.id ∈ rl.map RectFeature.id := List.mem_map_of_mem _ hr
    exact ⟨_, (bucketOf_map_points hm).1 r.id hkm⟩
  · intro p hout k bkt hbkt hpin
    have hkm : k ∈ rl.map RectFeature.id := by
      rw [← map_points_keys hm]
      exact bucketOf_isSome_iff.mp (by simp [hbkt])
    have h1 := (bucketOf_map_points hm).1 k hkm
    rw [hbkt] at h1
    cases h1
    have hp := List.mem_filter.mp hpin
    have ha : assignedRect rl (create_spatial_index rl) p = some k := by
      simpa using hp.2
    obtain ⟨rf, hrf, _, hcf⟩ := contains_of_assignedRect ha
    exact hout rf hrf hcf

/-- C8 -- Frame property: a point contained by no rectangle keeps its
original geometry across a full run, and the only mutations `move_points`
ever stages are geometry updates of point features that appear in some
assignment bucket (the embedding carries no rectangle mutation at all). -/
theorem c8_frame_effects (rl : List RectFeature) (pts : List PointFeature)
    (hP : (pts.map PointFeature.id).Nodup) :
    (∀ (j : Nat) (f : PointFeature), pts[j]? = some f →
      (∀ r ∈ rl, ¬ r.geom.containsPt f.geom) →
      (runOnce rl pts)[j]? = some f) ∧
    (∀ (pl : List PointFeature) (sr : List RectFeature) (pm : PointMap)
      (ck : Bool) (fid : Int) (g : Pt),
      Ev.changeGeometry fid g ∈ (move_points pl sr pm ck none).events →
      ∃ r ∈ sr, ∃ bkt, bucketOf pm r.id = some bkt ∧
        fid ∈ bkt.map PointFeature.id) := by
  constructor
  · intro j f hj hout
    obtain ⟨m, hm⟩ := Option.isSome_iff_exists.mp (map_points_isSome pts rl)
    simp only [runOnce, hm]
    by_cases hsr : get_sorted_rectangles rl = []
    · rw [hsr, move_points_nil]
      exact hj
    · rw [move_points_success pts hsr m]
      apply applyOps_untouched hj
      intro hfin
      obtain ⟨⟨fid, g⟩, hop, hfst⟩ := List.mem_map.mp hfin
      simp only at hfst
      subst hfst
      have hev := mem_opsOf.mp hop
      obtain ⟨i, hi, bkt, q, hbkt, hq, hqid, _⟩ := mem_stagingEvents_change hev
      have hkm : ((get_sorted_rectangles rl).get ⟨i, hi⟩).id ∈
          rl.map RectFeature.id := by
        apply List.mem_map_of_mem
        exact (List.perm_insertionSort rectLE rl).subset
          (List.get_mem (get_sorted_rectangles rl) _ _)
      have h1 := (bucketOf_map_points hm).1 _ hkm
      rw [hbkt] at h1
      cases h1
      have hqf := List.mem_filter.mp hq
      have hqe : q = f :=
        List.inj_on_of_nodup_map hP hqf.1 (List.getElem?_mem hj) hqid
      have ha : assignedRect rl (create_spatial_index rl) q =
          some ((get_sorted_rectangles rl).get ⟨i, hi⟩).id := by
        simpa using hqf.2
      obtain ⟨rf, hrf, _, hcf⟩ := contains_of_assignedRect ha
      rw [hqe] at hcf
      exact hout rf hrf hcf
  · intro pl sr pm ck fid g hev
    rcases events_move_points hev with he | he | he | he
    · cases he
    · obtain ⟨i, hi, bkt, q, hbkt, hq, hqid, _⟩ := mem_stagingEvents_change he
      exact ⟨sr.get ⟨i, hi⟩, List.get_mem sr _ _, bkt, hbkt,
        hqid ▸ List.mem_map_of_mem PointFeature.id hq⟩
    · cases he
    · cases he

/-- C9 -- A rectangle with a missing or empty bucket is a no-op: its loop
iteration emits no events (in particular stages no geometry update), and no
per-move log line naming it as source appears anywhere in the run's trace
(given the layer invariant that rectangle identifiers are unique). -/
theorem c9_empty_bucket_noop (pl : List PointFeature) (sr : List RectFeature)
    (pm : PointMap) (ck : Bool) (rA : Option Nat)
    (hR : (sr.map RectFeature.id).Nodup) (r : RectFeature) (hr : r ∈ sr)
    (hbkt : bucketOf pm r.id = none ∨ bucketOf pm r.id = some []) :
    (∀ tgt : RectFeature, rectEvents pm r tgt = []) ∧
    (∀ t n, Ev.logMove r.id t n ∉ (move_points pl sr pm ck rA).events) := by
  constructor
  · intro tgt
    rcases hbkt with hb | hb <;> rw [rectEvents] <;> rw [hb]
  · intro t n hev
    rcases events_move_points hev with he | he | he | he
    · cases he
    · obtain ⟨r', hr', bkt, hs, hbkt', hne⟩ := mem_stagingEvents_log he
      have hre : r = r' := List.inj_on_of_nodup_map hR hr hr' hs
      rw [← hre] at hbkt'
      rcases hbkt with hb | hb
      · rw [hb] at hbkt'
        cases hbkt'
      · rw [hb] at hbkt'
        cases hbkt'
        exact hne rfl
    · cases he
    · cases he

/-! ### Single-run relocation lemmas -/

theorem stagingEvents_change_mem {sr : List RectFeature} {pm : PointMap}
    {i : Nat} (hi : i < sr.length) {bkt : List PointFeature} {q : PointFeature}
    (hb : bucketOf pm (sr.get ⟨i, hi⟩).id = some bkt) (hq : q ∈ bkt) :
    Ev.changeGeometry q.id
      (newGeomFor (sr.get ⟨i, hi⟩).geom.centroid
        (sr.get ⟨(i + 1) % sr.length,
          Nat.mod_lt _ (Nat.lt_of_le_of_lt (Nat.zero_le i) hi)⟩).geom.centroid
        q.geom)
      ∈ stagingEvents sr pm := by
  have h2 : (i + 1) % sr.length < sr.length :=
    Nat.mod_lt _ (Nat.lt_of_le_of_lt (Nat.zero_le i) hi)
  have hgetD : sr.getD ((i + 1) % sr.length) (sr.get ⟨i, hi⟩) =
      sr.get ⟨(i + 1) % sr.length, h2⟩ := by
    rw [List.getD_eq_getElem?_getD, List.getElem?_eq_getElem h2]
    rfl
  unfold stagingEvents
  apply List.mem_flatMap.mpr
  refine ⟨(i, sr.get ⟨i, hi⟩), ?_, ?_⟩
  · exact List.mk_mem_enum_iff_getElem?.mpr
      (by rw [List.getElem?_eq_getElem hi]; rfl)
  · rw [hgetD]
    exact mem_rectEvents_change.mpr ⟨bkt, q, hb, hq, rfl, rfl⟩

theorem runOnce_map_id (rl : List RectFeature) (pts : List PointFeature) :
    (runOnce rl pts).map PointFeature.id = pts.map PointFeature.id := by
  obtain ⟨m, hm⟩ := Option.isSome_iff_exists.mp (map_points_isSome pts rl)
  simp only [runOnce, hm]
  by_cases hsr : get_sorted_rectangles rl = []
  · rw [hsr, move_points_nil]
  · rw [move_points_success pts hsr m]
    exact map_id_applyOps _ _

theorem iterate_runOnce_map_id (rl : List RectFeature) (pts : List PointFeature)
    (k : Nat) :
    ((runOnce rl)^[k] pts).map PointFeature.id = pts.map PointFeature.id := by
  induction k with
  | zero => rfl
  | succ k ih =>
    rw [Function.iterate_succ_apply', runOnce_map_id, ih]

/-- One successful run relocates a point strictly inside the rectangle at
sorted position `i` by exactly the centroid translation onto the cyclic
successor — given unique rectangle identifiers, non-overlapping
rectangles, and unique point identifiers. -/
theorem runOnce_moves_point {rl : List RectFeature} {pts : List PointFeature}
    (hR : (rl.map RectFeature.id).Nodup) (hD : DisjointRects rl)
    (hP : (pts.map PointFeature.id).Nodup)
    {j : Nat} {f : PointFeature} (hj : pts[j]? = some f)
    {i : Nat} (hi : i < (get_sorted_rectangles rl).length)
    (hc : ((get_sorted_rectangles rl).get ⟨i, hi⟩).geom.containsPt f.geom) :
    (runOnce rl pts)[j]? = some ⟨f.id,
      newGeomFor ((get_sorted_rectangles rl).get ⟨i, hi⟩).geom.centroid
        ((get_sorted_rectangles rl).get ⟨(i + 1) % (get_sorted_rectangles rl).length,
          Nat.mod_lt _ (Nat.lt_of_le_of_lt (Nat.zero_le i) hi)⟩).geom.centroid
        f.geom⟩ := by
  obtain ⟨m, hm⟩ := Option.isSome_iff_exists.mp (map_points_isSome pts rl)
  have hperm := List.perm_insertionSort rectLE rl
  have hRS : ((get_sorted_rectangles rl).map RectFeature.id).Nodup :=
    (hperm.map RectFeature.id).nodup_iff.mpr hR
  have hpos : 0 < (get_sorted_rectangles rl).length :=
    Nat.lt_of_le_of_lt (Nat.zero_le i) hi
  have hsr : get_sorted_rectangles rl ≠ [] := by
    intro he
    rw [he] at hpos
    simp at hpos
  have hfmem : f ∈ pts := List.getElem?_mem hj
  have hbucket : ∀ (a : Nat) (ha : a < (get_sorted_rectangles rl).length),
      bucketOf m ((get_sorted_rectangles rl).get ⟨a, ha⟩).id =
        some (pts.filter (fun p => decide (assignedRect rl (create_spatial_index rl) p =
          some ((get_sorted_rectangles rl).get ⟨a, ha⟩).id))) := by
    intro a ha
    apply (bucketOf_map_points hm).1
    exact List.mem_map_of_mem RectFeature.id
      (hperm.subset (List.get_mem (get_sorted_rectangles rl) _ _))
  have hassign : assignedRect rl (create_spatial_index rl) f =
      some ((get_sorted_rectangles rl).get ⟨i, hi⟩).id :=
    assignedRect_eq_of_contains hR hD
      (hperm.subset (List.get_mem (get_sorted_rectangles rl) _ _)) hc
  simp only [runOnce, hm]
  rw [move_points_success pts hsr m]
  apply applyOps_hit
  · apply mem_opsOf.mpr
    apply stagingEvents_change_mem hi (hbucket i hi)
    apply List.mem_filter.mpr
    exact ⟨hfmem, by simp [hassign]⟩
  · intro g2 hg2
    obtain ⟨a, ha, bkt, q, hbkt, hq, hqid, hg⟩ :=
      mem_stagingEvents_change (mem_opsOf.mp hg2)
    rw [hbucket a ha] at hbkt
    cases hbkt
    have hqf := List.mem_filter.mp hq
    have hqe : q = f := List.inj_on_of_nodup_map hP hqf.1 hfmem hqid
    have ha2 : assignedRect rl (create_spatial_index rl) q =
        some ((get_sorted_rectangles rl).get ⟨a, ha⟩).id := by
      simpa using hqf.2
    rw [hqe, hassign] at ha2
    have hid2 : ((get_sorted_rectangles rl).get ⟨i, hi⟩).id =
        ((get_sorted_rectangles rl).get ⟨a, ha⟩).id :=
      Option.some_inj.mp ha2
    have hae : a = i := by
      have hmapg : ((get_sorted_rectangles rl).map RectFeature.id).get
          ⟨a, by simpa using ha⟩ =
          ((get_sorted_rectangles rl).map RectFeature.id).get
          ⟨i, by simpa using hi⟩ := by
        simp [List.get_eq_getElem, List.getElem_map]
        exact hid2.symm
      have := (hRS.get_inj_iff).mp hmapg
      simpa using this
    subst hae
    have hgetD : (get_sorted_rectangles rl).getD
        ((a + 1) % (get_sorted_rectangles rl).length)
        ((get_sorted_rectangles rl).get ⟨a, ha⟩) =
        (get_sorted_rectangles rl).get ⟨(a + 1) % (get_sorted_rectangles rl).length,
          Nat.mod_lt _ hpos⟩ := by
      rw [List.getD_eq_getElem?_getD,
        List.getElem?_eq_getElem (Nat.mod_lt _ hpos)]
      rfl
    rw [hg, hqe, hgetD]
  · exact hj
  · rfl

/-- Across `k` successive full runs (fresh assignment each time), a point
whose offset keeps it strictly inside every rectangle of the sorted cycle
sits at position `(i+k) mod N` of the cycle, carrying its original
offset. -/
theorem runOnce_iterate_tracks (rl : List RectFeature) (pts : List PointFeature)
    (hR : (rl.map RectFeature.id).Nodup) (hD : DisjointRects rl)
    (hP : (pts.map PointFeature.id).Nodup)
    (j : Nat) (f : PointFeature) (hj : pts[j]? = some f)
    (i : Nat) (hi : i < (get_sorted_rectangles rl).length)
    (hland : ∀ (a : Nat) (ha : a < (get_sorted_rectangles rl).length),
      ((get_sorted_rectangles rl).get ⟨a, ha⟩).geom.containsPt
        ⟨((get_sorted_rectangles rl).get ⟨a, ha⟩).geom.centroid.x +
           (f.geom.x - ((get_sorted_rectangles rl).get ⟨i, hi⟩).geom.centroid.x),
         ((get_sorted_rectangles rl).get ⟨a, ha⟩).geom.centroid.y +
           (f.geom.y - ((get_sorted_rectangles rl).get ⟨i, hi⟩).geom.centroid.y)⟩) :
    ∀ k : Nat, ((runOnce rl)^[k] pts)[j]? = some ⟨f.id,
      ⟨((get_sorted_rectangles rl).get ⟨(i + k) % (get_sorted_rectangles rl).length,
          Nat.mod_lt _ (Nat.lt_of_le_of_lt (Nat.zero_le i) hi)⟩).geom.centroid.x +
         (f.geom.x - ((get_sorted_rectangles rl).get ⟨i, hi⟩).geom.centroid.x),
       ((get_sorted_rectangles rl).get ⟨(i + k) % (get_sorted_rectangles rl).length,
          Nat.mod_lt _ (Nat.lt_of_le_of_lt (Nat.zero_le i) hi)⟩).geom.centroid.y +
         (f.geom.y - ((get_sorted_rectangles rl).get ⟨i, hi⟩).geom.centroid.y)⟩⟩ := by
  have hpos : 0 < (get_sorted_rectangles rl).length :=
    Nat.lt_of_le_of_lt (Nat.zero_le i) hi
  intro k
  induction k with
  | zero =>
    have hidx : (i + 0) % (get_sorted_rectangles rl).length = i := by
      rw [Nat.add_zero, Nat.mod_eq_of_lt hi]
    rw [Function.iterate_zero_apply, hj]
    simp only [hidx]
    congr 1
    cases f with
    | mk fid geom =>
      cases geom with
      | mk fx fy =>
        simp only [PointFeature.mk.injEq, Pt.mk.injEq]
        exact ⟨trivial, by ring, by ring⟩
  | succ k ih =>
    have hm : (i + k) % (get_sorted_rectangles rl).length <
        (get_sorted_rectangles rl).length := Nat.mod_lt _ hpos
    have hPk : (((runOnce rl)^[k] pts).map PointFeature.id).Nodup := by
      rw [iterate_runOnce_map_id]
      exact hP
    have hstep := runOnce_moves_point hR hD hPk ih hm
      (hland ((i + k) % (get_sorted_rectangles rl).length) hm)
    rw [Function.iterate_succ_apply', hstep]
    have hidx : ((i + k) % (get_sorted_rectangles rl).length + 1) %
        (get_sorted_rectangles rl).length =
        (i + (k + 1)) % (get_sorted_rectangles rl).length := by
      rw [Nat.mod_add_mod, Nat.add_assoc]
    have hget : (get_sorted_rectangles rl).get
        ⟨((i + k) % (get_sorted_rectangles rl).length + 1) %
          (get_sorted_rectangles rl).length, Nat.mod_lt _ hpos⟩ =
        (get_sorted_rectangles rl).get
        ⟨(i + (k + 1)) % (get_sorted_rectangles rl).length, Nat.mod_lt _ hpos⟩ :=
      congrArg _ (Fin.ext hidx)
    rw [hget]
    refine congrArg some ?_
    simp only [newGeomFor, PointFeature.mk.injEq, Pt.mk.injEq]
    exact ⟨by trivial, by ring, by ring⟩

/-- C4 (counterexample) -- The claim fails as stated: with the
non-overlapping rectangles `[0,10]²` (id 1) and `[20,22]×[0,2]` (id 2) —
unique identifiers, sorted order of length N = 2 — the single point
`(9, 9)` (id 7) is assigned to the first rectangle, yet applying the
relocation twice does not return it: its image `(25, 5)` falls outside the
small successor rectangle, is assigned to nothing on the second run, and
stays there. -/
theorem c4_cyclic_identity_counterexample :
    DisjointRects [⟨1, ⟨0, 0, 10, 10⟩⟩, ⟨2, ⟨20, 0, 22, 2⟩⟩] ∧
    (([⟨1, ⟨0, 0, 10, 10⟩⟩, ⟨2, ⟨20, 0, 22, 2⟩⟩] : List RectFeature).map
      RectFeature.id).Nodup ∧
    (([⟨7, ⟨9, 9⟩⟩] : List PointFeature).map PointFeature.id).Nodup ∧
    (get_sorted_rectangles [⟨1, ⟨0, 0, 10, 10⟩⟩, ⟨2, ⟨20, 0, 22, 2⟩⟩]).length = 2 ∧
    assignedRect [⟨1, ⟨0, 0, 10, 10⟩⟩, ⟨2, ⟨20, 0, 22, 2⟩⟩]
      (create_spatial_index [⟨1, ⟨0, 0, 10, 10⟩⟩, ⟨2, ⟨20, 0, 22, 2⟩⟩])
      ⟨7, ⟨9, 9⟩⟩ = some 1 ∧
    runOnce [⟨1, ⟨0, 0, 10, 10⟩⟩, ⟨2, ⟨20, 0, 22, 2⟩⟩]
        (runOnce [⟨1, ⟨0, 0, 10, 10⟩⟩, ⟨2, ⟨20, 0, 22, 2⟩⟩] [⟨7, ⟨9, 9⟩⟩]) ≠
      [⟨7, ⟨9, 9⟩⟩] := by
  refine ⟨?_, by decide, by decide, ?_, ?_, ?_⟩
  · constructor
    · intro r hr q hq
      simp only [List.mem_singleton] at hr
      subst hr
      simp only [Rect.containsPt, Bool.and_eq_true, decide_eq_true_eq] at hq
      obtain ⟨⟨⟨⟨_, h1⟩, _⟩, _⟩, ⟨⟨⟨h2, _⟩, _⟩, _⟩⟩ := hq
      linarith
    · constructor
      · intro r hr
        simp at hr
      · exact List.Pairwise.nil
  · norm_num [get_sorted_rectangles, List.insertionSort, List.orderedInsert,
      rectLE, centroidX, Rect.centroid]
  · norm_num [assignedRect, SpatialIndex.intersects, create_spatial_index,
      Rect.boundingBox, Pt.boundingBox, Box.intersects, chooseRect, getFeature,
      Rect.containsPt]
  · norm_num [runOnce, get_sorted_rectangles, rectLE, centroidX, Rect.centroid,
      List.insertionSort, List.orderedInsert, create_spatial_index,
      map_points_to_rectangles, SpatialIndex.intersects, Rect.boundingBox,
      Pt.boundingBox, Box.intersects, assignToCandidates, getFeature,
      Rect.containsPt, appendToBucket, bucketOf, move_points, stagingEvents,
      rectEvents, opsOf, newGeomFor, commitPhase, applyOps, changeGeometry,
      List.foldlM, List.enum, List.enumFrom]

/-- C4 (amended) -- Cyclic identity after N applications holds under the
additional hypothesis the counterexample forces: the point's offset must
place it strictly inside every rectangle of the cycle (together with the
layer invariants of unique rectangle and point identifiers).  Then N full
runs — each with a fresh assignment over the unchanged, hence identically
sorted, rectangle layer — return the point feature to exactly its original
geometry, i.e. its original rectangle and offset. -/
theorem c4_cyclic_identity_amended (rl : List RectFeature)
    (pts : List PointFeature)
    (hR : (rl.map RectFeature.id).Nodup) (hD : DisjointRects rl)
    (hP : (pts.map PointFeature.id).Nodup)
    (j : Nat) (f : PointFeature) (hj : pts[j]? = some f)
    (i : Nat) (hi : i < (get_sorted_rectangles rl).length)
    (hland : ∀ (a : Nat) (ha : a < (get_sorted_rectangles rl).length),
      ((get_sorted_rectangles rl).get ⟨a, ha⟩).geom.containsPt
        ⟨((get_sorted_rectangles rl).get ⟨a, ha⟩).geom.centroid.x +
           (f.geom.x - ((get_sorted_rectangles rl).get ⟨i, hi⟩).geom.centroid.x),
         ((get_sorted_rectangles rl).get ⟨a, ha⟩).geom.centroid.y +
           (f.geom.y - ((get_sorted_rectangles rl).get ⟨i, hi⟩).geom.centroid.y)⟩) :
    ((runOnce rl)^[(get_sorted_rectangles rl).length] pts)[j]? = some f := by
  have h := runOnce_iterate_tracks rl pts hR hD hP j f hj i hi hland
    (get_sorted_rectangles rl).length
  have hidx : (i + (get_sorted_rectangles rl).length) %
      (get_sorted_rectangles rl).length = i := by
    rw [Nat.add_mod_right, Nat.mod_eq_of_lt hi]
  rw [h]
  simp only [hidx]
  congr 1
  cases f with
  | mk fid geom =>
    cases geom with
    | mk fx fy =>
      simp only [PointFeature.mk.injEq, Pt.mk.injEq]
      exact ⟨trivial, by ring, by ring⟩

theorem rectFeature_disjoint_of_right {r1 r2 : RectFeature}
    (h : r1.geom.xMax ≤ r2.geom.xMin) :
    ∀ q : Pt, ¬(r1.geom.containsPt q ∧ r2.geom.containsPt q) := by
  rintro q ⟨h1, h2⟩
  simp only [Rect.containsPt, Bool.and_eq_true, decide_eq_true_eq] at h1 h2
  have hx1 : q.x < r1.geom.xMax := h1.1.1.2
  have hx2 : r2.geom.xMin < q.x := h2.1.1.1
  linarith

theorem rectFeature_disjoint_of_left {r1 r2 : RectFeature}
    (h : r2.geom.xMax ≤ r1.geom.xMin) :
    ∀ q : Pt, ¬(r1.geom.containsPt q ∧ r2.geom.containsPt q) := by
  rintro q ⟨h1, h2⟩
  simp only [Rect.containsPt, Bool.and_eq_true, decide_eq_true_eq] at h1 h2
  have hx1 : r1.geom.xMin < q.x := h1.1.1.1
  have hx2 : q.x < r2.geom.xMax := h2.1.1.2
  linarith

/-! ### Witnesses at the concrete specification scenario -/

/-- Witness for C1: in the scenario, the point at (1,1) owned by the
rectangle with centroid (0,0) is staged to (11,1), and the point at (19,1)
owned by the last rectangle wraps to (-1,1). -/
theorem c1_relocation_is_translation_witness :
    Ev.changeGeometry 1 ⟨11, 1⟩ ∈ (move_points ptsW srW pmW true none).events ∧
    Ev.changeGeometry 2 ⟨-1, 1⟩ ∈ (move_points ptsW srW pmW true none).events := by
  constructor
  · have h := c1_relocation_is_translation ptsW srW pmW true 0 (by decide)
      [⟨1, ⟨1, 1⟩⟩] rfl ⟨1, ⟨1, 1⟩⟩ (by simp)
    norm_num [srW, Rect.centroid, List.get] at h
    exact h
  · have h := c1_relocation_is_translation ptsW srW pmW true 2 (by decide)
      [⟨2, ⟨19, 1⟩⟩] rfl ⟨2, ⟨19, 1⟩⟩ (by simp)
    norm_num [srW, Rect.centroid, List.get] at h
    exact h

/-- Witness for C3 at the scenario assignment: both lookups of point
identifier 1 land in the bucket of rectangle 101, and the theorem applies
to give 101 = 101. -/
theorem c3_assignment_exclusive_witness :
    (ptsW.map PointFeature.id).Nodup ∧
    map_points_to_rectangles ptsW rectsW (create_spatial_index rectsW) =
      some [(102, []), (103, [⟨2, ⟨19, 1⟩⟩]), (101, [⟨1, ⟨1, 1⟩⟩])] ∧
    (101 : Int) = 101 := by
  have hm : map_points_to_rectangles ptsW rectsW (create_spatial_index rectsW) =
      some [(102, []), (103, [⟨2, ⟨19, 1⟩⟩]), (101, [⟨1, ⟨1, 1⟩⟩])] := by
    norm_num [ptsW, rectsW, map_points_to_rectangles, create_spatial_index,
      SpatialIndex.intersects, Rect.boundingBox, Pt.boundingBox, Box.intersects,
      assignToCandidates, getFeature, Rect.containsPt, appendToBucket,
      List.foldlM]
  refine ⟨by decide, hm, ?_⟩
  exact c3_assignment_exclusive ptsW rectsW _ (by decide) hm 1 101 101
    [⟨1, ⟨1, 1⟩⟩] [⟨1, ⟨1, 1⟩⟩] (by norm_num [bucketOf]) (by norm_num [bucketOf])
    (by simp) (by simp)

/-- Witness for C4 (amended) at the scenario: the point with identifier 1
at (1,1), whose offset (1,1) lands inside all three rectangles, is back at
its original layer entry after exactly N = 3 runs. -/
theorem c4_cyclic_identity_amended_witness :
    ((runOnce rectsW)^[(get_sorted_rectangles rectsW).length] ptsW)[0]? =
      some ⟨1, ⟨1, 1⟩⟩ := by
  have hsorted : get_sorted_rectangles rectsW = srW := by
    norm_num [get_sorted_rectangles, rectsW, srW, List.insertionSort,
      List.orderedInsert, rectLE, centroidX, Rect.centroid]
  have hD : DisjointRects rectsW := by
    rw [rectsW]
    refine List.Pairwise.cons ?_ (List.Pairwise.cons ?_
      (List.Pairwise.cons (by simp) List.Pairwise.nil))
    · intro r hr
      simp only [List.mem_cons, List.not_mem_nil, or_false] at hr
      rcases hr with rfl | rfl
      · exact rectFeature_disjoint_of_right (by norm_num)
      · exact rectFeature_disjoint_of_left (by norm_num)
    · intro r hr
      simp only [List.mem_cons, List.not_mem_nil, or_false] at hr
      subst hr
      exact rectFeature_disjoint_of_left (by norm_num)
  have hi : 0 < (get_sorted_rectangles rectsW).length := by
    rw [hsorted]
    norm_num [srW]
  apply c4_cyclic_identity_amended rectsW ptsW (by decide) hD (by decide)
    0 ⟨1, ⟨1, 1⟩⟩ rfl 0 hi
  intro a ha
  have ha3 : a < 3 := by
    rw [hsorted] at ha
    simpa [srW] using ha
  interval_cases a <;>
    norm_num [get_sorted_rectangles, rectsW, List.insertionSort,
      List.orderedInsert, rectLE, centroidX, Rect.centroid, Rect.containsPt,
      List.get]

/-- Witness for C6: on the scenario layers the assignment is produced
without error. -/
theorem c6_assignment_keys_and_orphans_witness :
    ∃ m, map_points_to_rectangles ptsW rectsW (create_spatial_index rectsW) =
      some m := by
  obtain ⟨m, hm, -, -⟩ := c6_assignment_keys_and_orphans ptsW rectsW
  exact ⟨m, hm⟩

/-- Witness for C8: a point at (100,100), contained by no scenario
rectangle, keeps its layer entry across a full run. -/
theorem c8_frame_effects_witness :
    (runOnce rectsW [⟨3, ⟨100, 100⟩⟩])[0]? = some ⟨3, ⟨100, 100⟩⟩ := by
  apply (c8_frame_effects rectsW [⟨3, ⟨100, 100⟩⟩] (by decide)).1 0 _ rfl
  intro r hr
  rw [rectsW] at hr
  simp only [List.mem_cons, List.not_mem_nil, or_false] at hr
  rcases hr with rfl | rfl | rfl
  · norm_num [Rect.containsPt]
  · norm_num [Rect.containsPt]
  · norm_num [Rect.containsPt]

/-- Witness for C9: rectangle 102 has an empty bucket in the scenario
assignment, so its iteration emits nothing and no log line names it. -/
theorem c9_empty_bucket_noop_witness :
    (∀ tgt : RectFeature, rectEvents pmW ⟨102, ⟨8, -2, 12, 2⟩⟩ tgt = []) ∧
    (∀ t n, Ev.logMove 102 t n ∉ (move_points ptsW srW pmW true none).events) := by
  have h := c9_empty_bucket_noop ptsW srW pmW true none (by decide)
    ⟨102, ⟨8, -2, 12, 2⟩⟩ (by simp [srW]) (Or.inr rfl)
  exact h

/-- Witness for C5: the sorted scenario sequence is ascending in centroid
X. -/
theorem c5_sort_witness :
    List.Sorted rectLE (get_sorted_rectangles rectsW) :=
  (c5_sort_sorted_stable_deterministic rectsW).1

/-- Witness for C7: at the concrete scenario layer the empty-rectangle run
is a no-op failure. -/
theorem c7_empty_rectangles_fail_fast_witness :
    move_points ptsW (get_sorted_rectangles []) pmW true none =
      ⟨false, ptsW, []⟩ :=
  c7_empty_rectangles_fail_fast ptsW pmW true none

/-- Witness for C10 on the scenario layers. -/
theorem c10_assignment_lookups_total_witness :
    ∃ m, map_points_to_rectangles [] rectsW (create_spatial_index rectsW) =
      some m :=
  c10_assignment_lookups_total [] rectsW

end MovePoint
